import Mathlib

/-! Verification model of the vindicator crate (late fusion of search
result lists). Floating-point scores (`type Score = N32`, an f32 barred
from being NaN) are idealised as exact rationals; the TREC codec, which
must distinguish NaN and the infinities, works over an explicit `F32`
type whose finite values are rationals. Strings are lists of characters.
All definitions are translated from the crate's source files
(`src/lib.rs`, `src/fuser.rs`, `src/trec.rs`, `src/main.rs`). -/

/-- A search result's score (source: `type Score = N32` in lib.rs),
idealised as an exact rational. -/
abbrev Score := ℚ

/-- A search result's rank (source: `type Rank = u32` in lib.rs). -/
abbrev Rank := ℕ

/-- Minimal scored result (source: `struct EntryInfo<I>` in lib.rs). -/
structure EntryInfo (I : Type) where
  id : I
  score : Score
deriving DecidableEq

/-- The `SearchEntry` trait of lib.rs as an explicit dictionary of its
two capabilities: project an id and a score out of an entry. -/
structure SearchEntryDict (R I : Type) where
  id : R → I
  score : R → Score

/-- Source: `SearchEntry::to_entry`, building the minimal entry form. -/
def to_entry {R I : Type} (d : SearchEntryDict R I) (r : R) : EntryInfo I :=
  { id := d.id r, score := d.score r }

/-- The `impl SearchEntry for EntryInfo<I>` instance of lib.rs. -/
def entryDict (I : Type) : SearchEntryDict (EntryInfo I) I :=
  { id := EntryInfo.id, score := EntryInfo.score }

/-- CombMAX (source: `fuser::comb_max`): highest score, `0.0` when the
input is empty (`scores.into_iter().cloned().max().unwrap_or(n32(0.))`). -/
def comb_max (scores : List Score) : Score :=
  (scores.max?).getD 0

/-- CombSUM (source: `fuser::comb_sum`): sum of all scores. -/
def comb_sum (scores : List Score) : Score :=
  scores.sum

/-- CombMNZ (source: `fuser::comb_mnz`): sum of all scores multiplied by
the number of scores (`n32(scores.len() as f32) * comb_sum(scores)`). -/
def comb_mnz (scores : List Score) : Score :=
  (scores.length : Score) * comb_sum scores

/-- One step of building the grouping map: push a score onto the entry
for `i`, or append a fresh singleton group (source: the `if let
Some(v) = map.get_mut(r.id())` loop body of `fuse_scored`). The HashMap
is modelled as an association list in first-insertion order. -/
def insertScore {I : Type} [DecidableEq I] :
    List (I × List Score) → I → Score → List (I × List Score)
  | [], i, s => [(i, [s])]
  | (j, ss) :: m, i, s =>
    if j = i then (j, ss ++ [s]) :: m else (j, ss) :: insertScore m i s

/-- The grouping map of `fuse_scored`: one pass over the input entries. -/
def buildMap {R I : Type} [DecidableEq I] (d : SearchEntryDict R I)
    (l : List R) : List (I × List Score) :=
  l.foldl (fun m r => insertScore m (d.id r) (d.score r)) []

/-- Descending-score order used by the final sort of the fusion engine
(source: `flat.sort_unstable_by_key(|e| -e.score)`). -/
def scoreGE {I : Type} (a b : EntryInfo I) : Prop :=
  b.score ≤ a.score

instance {I : Type} : DecidableRel (@scoreGE I) :=
  fun a b => inferInstanceAs (Decidable (b.score ≤ a.score))

instance {I : Type} : IsTotal (EntryInfo I) scoreGE :=
  ⟨fun a b => le_total b.score a.score⟩

instance {I : Type} : IsTrans (EntryInfo I) scoreGE :=
  ⟨fun _ _ _ h1 h2 => le_trans h2 h1⟩

/-- Source: `fuser::fuse_scored`. Groups entries by id, reduces every
group's score sequence through the supplied combination function and
sorts the flat result by descending score. -/
def fuse_scored {R I : Type} [DecidableEq I] (d : SearchEntryDict R I)
    (l : List R) (f : List Score → Score) : List (EntryInfo I) :=
  List.insertionSort scoreGE
    ((buildMap d l).map (fun p => { id := p.1, score := f p.2 }))

/-- Source: `fuser::fuse_scored_lists`: converts both lists to the
minimal entry form, chains them and calls `fuse_scored`. -/
def fuse_scored_lists {R1 R2 I : Type} [DecidableEq I]
    (d1 : SearchEntryDict R1 I) (d2 : SearchEntryDict R2 I)
    (l1 : List R1) (l2 : List R2) (f : List Score → Score) :
    List (EntryInfo I) :=
  fuse_scored (entryDict I) (l1.map (to_entry d1) ++ l2.map (to_entry d2)) f

/-- The multiset of scores an id collects from an input list, in input
order (specification device for stating grouping facts). -/
def scoresOf {R I : Type} [DecidableEq I] (d : SearchEntryDict R I)
    (l : List R) (i : I) : List Score :=
  (l.filter (fun r => decide (d.id r = i))).map d.score

/-- Association-list lookup into the grouping map. -/
def findScores {I : Type} [DecidableEq I] :
    List (I × List Score) → I → Option (List Score)
  | [], _ => none
  | (j, ss) :: m, i => if j = i then some ss else findScores m i

/-- The CLI's fusion-algorithm selector (source: `enum Fuser` in
main.rs). -/
inductive Fuser where
  | CombMax
  | CombSum
  | CombMnz
deriving DecidableEq

/-- Source: `impl FromStr for Fuser` in main.rs, translated arm for arm.
Every recognised name resolves to `Fuser::CombMax` in the source. -/
def from_str (s : List Char) : Except (List Char) Fuser :=
  if s = "combMAX".toList ∨ s = "combmax".toList ∨ s = "max".toList then
    Except.ok Fuser.CombMax
  else if s = "combSUM".toList ∨ s = "combsum".toList ∨ s = "sum".toList then
    Except.ok Fuser.CombMax
  else if s = "combMNZ".toList ∨ s = "combmnz".toList ∨ s = "mnz".toList then
    Except.ok Fuser.CombMax
  else
    Except.error s

/-- The merge dispatch of `main` (source: the `match fuser` feeding
`fuse_scored`): which combination function each selector applies. -/
def dispatch : Fuser → (List Score → Score)
  | Fuser.CombMax => comb_max
  | Fuser.CombSum => comb_sum
  | Fuser.CombMnz => comb_mnz

/-- An f32 value as the TREC codec sees it: NaN, one of the infinities,
or a finite value (idealised as an exact rational). -/
inductive F32 where
  | nan
  | inf
  | neginf
  | finite (q : ℚ)
deriving DecidableEq

/-- Source: `Score::try_new` (noisy_float): constructing a score fails
exactly on NaN input. -/
def try_new (f : F32) : Option F32 :=
  if f = F32.nan then none else some f

/-- One parsed TREC record (source: `struct TrecEntry` in trec.rs; the
borrowed string fields are lists of characters). -/
structure TrecEntry where
  qid : List Char
  docno : List Char
  rank : Rank
  score : F32
  runid : List Char
deriving DecidableEq

/-- Source: `enum ParseError` in trec.rs. -/
inductive ParseError where
  | Eol (att : List Char)
  | InvalidRank (s : List Char)
  | InvalidScore (s : List Char)
  | Other (s : List Char)
deriving DecidableEq

/-- Digit value of an ASCII character. -/
def charVal (c : Char) : ℕ := c.toNat - 48

/-- ASCII decimal digit test. -/
def isDigitC (c : Char) : Bool := 48 ≤ c.toNat && c.toNat ≤ 57

/-- Whitespace as `split_whitespace` sees it (modelled on the ASCII
whitespace characters). -/
def wsC (c : Char) : Bool := (9 ≤ c.toNat && c.toNat ≤ 13) || c.toNat == 32

/-- ASCII lower-casing, used for the case-insensitive `inf`/`nan`
literals of the float grammar. -/
def lowerC (c : Char) : Char :=
  if 65 ≤ c.toNat && c.toNat ≤ 90 then Char.ofNat (c.toNat + 32) else c

/-- The character of a decimal digit. -/
def digitChar (n : ℕ) : Char := Char.ofNat (48 + n)

/-- Worker for `splitWhitespace`, carrying the current word reversed. -/
def swAux : List Char → List Char → List (List Char)
  | [], w => if w.isEmpty then [] else [w.reverse]
  | c :: tl, w =>
    if wsC c then
      (if w.isEmpty then swAux tl [] else w.reverse :: swAux tl [])
    else swAux tl (c :: w)

/-- Source: `str::split_whitespace` — maximal runs of non-whitespace
characters, in order. -/
def splitWhitespace (l : List Char) : List (List Char) :=
  swAux l []

/-- Value of a decimal digit word (most significant digit first). -/
def wordVal (cs : List Char) : ℕ :=
  cs.foldl (fun a c => 10 * a + charVal c) 0

/-- Value of a nonempty all-digit word, `none` otherwise. -/
def digitsVal? (cs : List Char) : Option ℕ :=
  if cs.isEmpty then none
  else if cs.all isDigitC then some (wordVal cs) else none

/-- Strip one leading `+` sign. -/
def stripPlus (cs : List Char) : List Char :=
  match cs with
  | [] => []
  | c :: tl => if c = '+' then tl else c :: tl

/-- Strip one leading sign, reporting whether it was a minus. -/
def stripSign (cs : List Char) : Bool × List Char :=
  match cs with
  | [] => (false, [])
  | c :: tl =>
    if c = '-' then (true, tl)
    else if c = '+' then (false, tl)
    else (false, c :: tl)

/-- Source: `u32::from_str` — optional `+` sign, digits, value bounded
by the u32 range. -/
def parseU32 (cs : List Char) : Option ℕ :=
  match digitsVal? (stripPlus cs) with
  | none => none
  | some n => if n < 2 ^ 32 then some n else none

/-- Split a character list at the first character satisfying `p`; the
second component tells whether such a character was found. -/
def splitOnFirst (p : Char → Bool) : List Char → List Char × Option (List Char)
  | [] => ([], none)
  | c :: tl =>
    if p c then ([], some tl)
    else
      let r := splitOnFirst p tl
      (c :: r.1, r.2)

/-- Decimal mantissa of the f32 grammar: `Digit+`, `Digit+ '.' Digit*`
or `Digit* '.' Digit+`, as an exact rational. -/
def parseMantissa (cs : List Char) : Option ℚ :=
  match splitOnFirst (fun c => c == '.') cs with
  | (ip, none) => (digitsVal? ip).map (fun n => (n : ℚ))
  | (ip, some fp) =>
    if ip.all isDigitC ∧ fp.all isDigitC ∧ (ip ≠ [] ∨ fp ≠ []) then
      some (((wordVal ip * 10 ^ fp.length + wordVal fp : ℕ) : ℚ) /
        ((10 : ℚ) ^ fp.length))
    else none

/-- Signed exponent of the f32 grammar (`Sign? Digit+`). -/
def parseExpVal (cs : List Char) : Option ℤ :=
  let sr := stripSign cs
  (digitsVal? sr.2).map (fun n => if sr.1 then -(n : ℤ) else (n : ℤ))

/-- Source: `f32::from_str`, idealised to exact values: optional sign,
case-insensitive `inf`/`infinity`/`nan` literals, otherwise a decimal
mantissa with optional exponent. Rounding to the nearest f32 (and
overflow to infinity) is idealised away: the exact rational value of
the literal is kept. -/
def parseF32Rest (neg : Bool) (rest : List Char) : Option F32 :=
  let low := rest.map lowerC
  if low = "inf".toList ∨ low = "infinity".toList then
    some (if neg then F32.neginf else F32.inf)
  else if low = "nan".toList then some F32.nan
  else
    match splitOnFirst (fun c => c == 'e' || c == 'E') rest with
    | (mant, none) =>
      (parseMantissa mant).map (fun q => F32.finite (if neg then -q else q))
    | (mant, some ex) =>
      match parseMantissa mant, parseExpVal ex with
      | some q, some e =>
        some (F32.finite (if neg then -(q * (10 : ℚ) ^ e) else q * (10 : ℚ) ^ e))
      | _, _ => none

/-- See `parseF32Rest` for the grammar after the sign. -/
def parseF32 (cs : List Char) : Option F32 :=
  parseF32Rest (stripSign cs).1 (stripSign cs).2

/-- Source: the per-line closure of `trec::parse_from_trec`, reading the
six whitespace-separated fields in order from a `split_whitespace`
iterator. -/
def parseLine (l : List Char) : Except ParseError TrecEntry :=
  match splitWhitespace l with
  | [] => Except.error (ParseError.Eol "qid".toList)
  | [_] => Except.error (ParseError.Eol "reserved".toList)
  | [_, _] => Except.error (ParseError.Eol "docno".toList)
  | [_, _, _] => Except.error (ParseError.Eol "rank".toList)
  | qid :: _res :: docno :: rankTok :: rest =>
    match parseU32 rankTok with
    | none => Except.error (ParseError.InvalidRank rankTok)
    | some rank =>
      match rest with
      | [] => Except.error (ParseError.Eol "score".toList)
      | scoreTok :: rest2 =>
        match (parseF32 scoreTok).bind try_new with
        | none => Except.error (ParseError.InvalidScore scoreTok)
        | some f =>
          match rest2 with
          | [] => Except.error (ParseError.Eol "runid".toList)
          | runid :: _ =>
            Except.ok { qid := qid, docno := docno, rank := rank,
                        score := f, runid := runid }

/-- Split at every newline character (pieces do not contain `\n`; a
trailing newline yields a final empty piece). -/
def splitNl : List Char → List (List Char)
  | [] => [[]]
  | c :: tl =>
    if c = '\n' then [] :: splitNl tl
    else
      match splitNl tl with
      | [] => [[c]]
      | h :: t => (c :: h) :: t

/-- Drop one carriage return before a line terminator. -/
def stripCr (l : List Char) : List Char :=
  if l.getLast? = some '\r' then l.dropLast else l

/-- Source: `str::lines` — split at `\n` (also consuming a `\r` right
before it); the text after the last terminator is a line unless empty. -/
def linesOf (cs : List Char) : List (List Char) :=
  let ps := splitNl cs
  ps.dropLast.map stripCr ++
    (match ps.getLast? with
     | some [] => []
     | some l => [l]
     | none => [])

/-- Model of `collect::<Result<Vec<_>, _>>()`: map a fallible function
over a list, stopping at the first error. -/
def mapME {α β ε : Type} (f : α → Except ε β) : List α → Except ε (List β)
  | [] => Except.ok []
  | a :: l =>
    match f a with
    | Except.error e => Except.error e
    | Except.ok b =>
      match mapME f l with
      | Except.error e => Except.error e
      | Except.ok bs => Except.ok (b :: bs)

/-- Source: `trec::parse_from_trec` — parse every line of the input,
aborting at the first failing line. -/
def parse_from_trec (input : List Char) : Except ParseError (List TrecEntry) :=
  mapME parseLine (linesOf input)

/-- Base-10 digits (least significant first) by fuel-bounded division;
agrees with `Nat.digits 10` once the fuel covers the number. -/
def natDigits : ℕ → ℕ → List ℕ
  | 0, _ => []
  | fuel + 1, n => if n = 0 then [] else n % 10 :: natDigits fuel (n / 10)

/-- Decimal digit word of a natural number, most significant first. -/
def natToChars (n : ℕ) : List Char :=
  if n = 0 then ['0'] else ((natDigits n n).map digitChar).reverse

/-- Left-pad a digit word with zeros up to width `k`. -/
def padZeros (k : ℕ) (cs : List Char) : List Char :=
  List.replicate (k - cs.length) '0' ++ cs

/-- Exact decimal rendering of `n / d` with `d` digits after the point
(exact whenever `d` divides `10 ^ d`). Models the decimal notation
`Display` for f32 produces. -/
def renderPosDec (n d : ℕ) : List Char :=
  let m := n * 10 ^ d / d
  let s := padZeros (d + 1) (natToChars m)
  s.take (s.length - d) ++ '.' :: s.drop (s.length - d)

/-- Display of an f32 value: `NaN`, `inf`, `-inf`, or the decimal
notation of a finite value. -/
def renderF32 : F32 → List Char
  | F32.nan => "NaN".toList
  | F32.inf => "inf".toList
  | F32.neginf => "-inf".toList
  | F32.finite q =>
    (if q < 0 then ['-'] else []) ++ renderPosDec q.num.natAbs q.den

/-- Source: `trec::write` — one line `qid 0 docno rank score runid`,
space-separated, newline-terminated. -/
def writeEntry (e : TrecEntry) : List Char :=
  e.qid ++ ' ' :: '0' :: ' ' ::
    (e.docno ++ ' ' ::
      (natToChars e.rank ++ ' ' ::
        (renderF32 e.score ++ ' ' :: (e.runid ++ ['\n']))))

/-- Source: `trec::write_all` — write every entry in order. -/
def write_all (l : List TrecEntry) : List Char :=
  (l.map writeEntry).flatten

/-- Field read order of the TREC record grammar: the field the parser is
about to read when only `n` tokens are present. -/
def fieldName (n : ℕ) : List Char :=
  match n with
  | 0 => "qid".toList
  | 1 => "reserved".toList
  | 2 => "docno".toList
  | 3 => "rank".toList
  | 4 => "score".toList
  | _ => "runid".toList

/-- A token acceptable as a score: parses to a non-NaN f32 value. -/
def scoreTokOk (t : List Char) : Bool :=
  match parseF32 t with
  | some F32.nan => false
  | some _ => true
  | none => false

/-- A string field survives the textual round trip when it is a single
nonempty whitespace-free token. -/
def tokenOk (t : List Char) : Bool :=
  !t.isEmpty && t.all (fun c => !wsC c)

/-- A finite f32 value whose rational is exactly representable in
decimal notation (true of every actual f32, whose value is dyadic). -/
def decimalRepr : F32 → Prop
  | F32.finite q => q.den ∣ 10 ^ q.den
  | _ => False

instance : DecidablePred decimalRepr := fun f =>
  match f with
  | F32.nan => inferInstanceAs (Decidable False)
  | F32.inf => inferInstanceAs (Decidable False)
  | F32.neginf => inferInstanceAs (Decidable False)
  | F32.finite q => inferInstanceAs (Decidable (q.den ∣ 10 ^ q.den))

/-- Conditions under which a record survives the textual round trip:
tokenish string fields, a rank in u32 range, and a finite
decimal-representable score. -/
def entryOk (e : TrecEntry) : Prop :=
  tokenOk e.qid = true ∧ tokenOk e.docno = true ∧ tokenOk e.runid = true ∧
    e.rank < 2 ^ 32 ∧ decimalRepr e.score

instance : DecidablePred entryOk := fun _ => instDecidableAnd

instance {ε α : Type} [DecidableEq ε] [DecidableEq α] :
    DecidableEq (Except ε α) := fun a b =>
  match a, b with
  | Except.ok x, Except.ok y =>
    if h : x = y then isTrue (by rw [h])
    else isFalse (by intro hc; cases hc; exact h rfl)
  | Except.error x, Except.error y =>
    if h : x = y then isTrue (by rw [h])
    else isFalse (by intro hc; cases hc; exact h rfl)
  | Except.ok _, Except.error _ => isFalse (by intro hc; cases hc)
  | Except.error _, Except.ok _ => isFalse (by intro hc; cases hc)

/-- The text of one serialized record without its line terminator
(so `writeEntry e = lineBody e ++ ['\n']`). -/
def lineBody (e : TrecEntry) : List Char :=
  e.qid ++ ' ' :: '0' :: ' ' ::
    (e.docno ++ ' ' ::
      (natToChars e.rank ++ ' ' ::
        (renderF32 e.score ++ ' ' :: e.runid)))

/-! Grouping-map lemmas for the fusion engine. -/

theorem insertScore_cons_pos {I : Type} [DecidableEq I] (j i : I)
    (ss : List Score) (m : List (I × List Score)) (s : Score) (h : j = i) :
    insertScore ((j, ss) :: m) i s = (j, ss ++ [s]) :: m := by
  simp [insertScore, h]

theorem insertScore_cons_neg {I : Type} [DecidableEq I] (j i : I)
    (ss : List Score) (m : List (I × List Score)) (s : Score) (h : ¬ j = i) :
    insertScore ((j, ss) :: m) i s = (j, ss) :: insertScore m i s := by
  simp [insertScore, h]

theorem insertScore_keys {I : Type} [DecidableEq I] (m : List (I × List Score))
    (i : I) (s : Score) (a : I) :
    a ∈ (insertScore m i s).map Prod.fst ↔ a = i ∨ a ∈ m.map Prod.fst := by
  induction m with
  | nil => simp [insertScore]
  | cons p m ih =>
    obtain ⟨j, ss⟩ := p
    by_cases hj : j = i
    · rw [insertScore_cons_pos _ _ _ _ _ hj]
      subst hj
      simp only [List.map_cons, List.mem_cons]
      tauto
    · rw [insertScore_cons_neg _ _ _ _ _ hj]
      simp only [List.map_cons, List.mem_cons, ih]
      tauto

theorem insertScore_keys_nodup {I : Type} [DecidableEq I]
    (m : List (I × List Score)) (i : I) (s : Score)
    (h : (m.map Prod.fst).Nodup) :
    ((insertScore m i s).map Prod.fst).Nodup := by
  induction m with
  | nil => simp [insertScore]
  | cons p m ih =>
    obtain ⟨j, ss⟩ := p
    simp only [List.map_cons, List.nodup_cons] at h
    by_cases hj : j = i
    · rw [insertScore_cons_pos _ _ _ _ _ hj]
      simp only [List.map_cons, List.nodup_cons]
      exact ⟨h.1, h.2⟩
    · rw [insertScore_cons_neg _ _ _ _ _ hj]
      simp only [List.map_cons, List.nodup_cons]
      refine ⟨?_, ih h.2⟩
      simp only [insertScore_keys]
      push_neg
      exact ⟨hj, h.1⟩

theorem findScores_insert_self {I : Type} [DecidableEq I]
    (m : List (I × List Score)) (i : I) (s : Score) :
    findScores (insertScore m i s) i =
      some ((findScores m i).getD [] ++ [s]) := by
  induction m with
  | nil => simp [insertScore, findScores]
  | cons p m ih =>
    obtain ⟨j, ss⟩ := p
    by_cases hj : j = i
    · rw [insertScore_cons_pos _ _ _ _ _ hj]
      simp [findScores, hj]
    · rw [insertScore_cons_neg _ _ _ _ _ hj]
      simp [findScores, hj, ih]

theorem findScores_insert_ne {I : Type} [DecidableEq I]
    (m : List (I × List Score)) (i a : I) (s : Score) (hai : a ≠ i) :
    findScores (insertScore m i s) a = findScores m a := by
  induction m with
  | nil =>
    have h : ¬ i = a := fun h => hai h.symm
    simp [insertScore, findScores, h]
  | cons p m ih =>
    obtain ⟨j, ss⟩ := p
    by_cases hj : j = i
    · have hja : ¬ j = a := fun h => hai (h ▸ hj)
      rw [insertScore_cons_pos _ _ _ _ _ hj]
      simp [findScores, hja]
    · rw [insertScore_cons_neg _ _ _ _ _ hj]
      by_cases hja : j = a
      · simp [findScores, hja]
      · simp [findScores, hja, ih]

theorem scoresOf_cons {R I : Type} [DecidableEq I] (d : SearchEntryDict R I)
    (r : R) (l : List R) (i : I) :
    scoresOf d (r :: l) i =
      if d.id r = i then d.score r :: scoresOf d l i else scoresOf d l i := by
  by_cases h : d.id r = i <;> simp [scoresOf, List.filter_cons, h]

theorem buildMap_go {R I : Type} [DecidableEq I] (d : SearchEntryDict R I) :
    ∀ (l : List R) (m : List (I × List Score)) (i : I),
      findScores (l.foldl (fun m r => insertScore m (d.id r) (d.score r)) m) i =
        match findScores m i with
        | some ss => some (ss ++ scoresOf d l i)
        | none => if i ∈ l.map d.id then some (scoresOf d l i) else none := by
  intro l
  induction l with
  | nil =>
    intro m i
    cases h : findScores m i <;> simp [scoresOf, h]
  | cons r l ih =>
    intro m i
    simp only [List.foldl_cons]
    rw [ih]
    by_cases hr : d.id r = i
    · rw [hr, findScores_insert_self, scoresOf_cons, if_pos hr]
      cases h : findScores m i <;>
        simp [h, List.map_cons, List.mem_cons, hr.symm, List.append_assoc]
    · have hir : i ≠ d.id r := fun h => hr h.symm
      rw [findScores_insert_ne _ _ _ _ hir, scoresOf_cons, if_neg hr]
      cases h : findScores m i <;>
        simp [h, List.map_cons, List.mem_cons, hir]

theorem findScores_buildMap {R I : Type} [DecidableEq I]
    (d : SearchEntryDict R I) (l : List R) (i : I) :
    findScores (buildMap d l) i =
      if i ∈ l.map d.id then some (scoresOf d l i) else none := by
  rw [buildMap, buildMap_go]
  simp [findScores]

theorem findScores_of_mem {I : Type} [DecidableEq I]
    (m : List (I × List Score)) (hnd : (m.map Prod.fst).Nodup)
    {i : I} {ss : List Score} (h : (i, ss) ∈ m) :
    findScores m i = some ss := by
  induction m with
  | nil => cases h
  | cons p m ih =>
    obtain ⟨j, tt⟩ := p
    simp only [List.map_cons, List.nodup_cons] at hnd
    rcases List.mem_cons.mp h with h1 | h1
    · cases h1
      simp [findScores]
    · have hji : ¬ j = i := by
        intro he
        subst he
        exact hnd.1 (List.mem_map_of_mem Prod.fst h1)
      simp [findScores, hji, ih hnd.2 h1]

theorem buildMap_keys_mem {R I : Type} [DecidableEq I]
    (d : SearchEntryDict R I) (l : List R) (a : I) :
    a ∈ (buildMap d l).map Prod.fst ↔ a ∈ l.map d.id := by
  have key : ∀ (l : List R) (m : List (I × List Score)),
      a ∈ ((l.foldl (fun m r => insertScore m (d.id r) (d.score r)) m).map
        Prod.fst) ↔ a ∈ m.map Prod.fst ∨ a ∈ l.map d.id := by
    intro l
    induction l with
    | nil => intro m; simp
    | cons r l ih =>
      intro m
      simp only [List.foldl_cons, ih, insertScore_keys, List.map_cons,
        List.mem_cons]
      tauto
  simpa using key l []

theorem buildMap_keys_nodup {R I : Type} [DecidableEq I]
    (d : SearchEntryDict R I) (l : List R) :
    ((buildMap d l).map Prod.fst).Nodup := by
  have key : ∀ (l : List R) (m : List (I × List Score)),
      (m.map Prod.fst).Nodup →
      (((l.foldl (fun m r => insertScore m (d.id r) (d.score r)) m)).map
        Prod.fst).Nodup := by
    intro l
    induction l with
    | nil => intro m hm; exact hm
    | cons r l ih =>
      intro m hm
      exact ih _ (insertScore_keys_nodup _ _ _ hm)
  exact key l [] (by simp)

theorem mem_fuse_scored_iff {R I : Type} [DecidableEq I]
    (d : SearchEntryDict R I) (l : List R) (f : List Score → Score)
    (e : EntryInfo I) :
    e ∈ fuse_scored d l f ↔
      e ∈ (buildMap d l).map (fun p => EntryInfo.mk p.1 (f p.2)) :=
  (List.perm_insertionSort _ _).mem_iff

theorem fuse_scored_spec {R I : Type} [DecidableEq I]
    (d : SearchEntryDict R I) (l : List R) (f : List Score → Score)
    (e : EntryInfo I) (he : e ∈ fuse_scored d l f) :
    e.id ∈ l.map d.id ∧ e.score = f (scoresOf d l e.id) := by
  rw [mem_fuse_scored_iff] at he
  obtain ⟨⟨i, ss⟩, hmem, heq⟩ := List.mem_map.mp he
  subst heq
  have h1 := findScores_of_mem _ (buildMap_keys_nodup d l) hmem
  rw [findScores_buildMap] at h1
  by_cases hi : i ∈ l.map d.id
  · rw [if_pos hi] at h1
    injection h1 with h1
    exact ⟨hi, by rw [← h1]⟩
  · rw [if_neg hi] at h1
    cases h1

theorem foldl_max_mem (l : List ℚ) : ∀ a : ℚ, l.foldl max a ∈ a :: l := by
  induction l with
  | nil => intro a; simp
  | cons x l ih =>
    intro a
    rw [List.foldl_cons]
    rcases List.mem_cons.mp (ih (max a x)) with h | h
    · rcases max_choice a x with hm | hm
      · rw [h, hm]
        exact List.mem_cons_self _ _
      · rw [h, hm]
        exact List.mem_cons_of_mem _ (List.mem_cons_self _ _)
    · exact List.mem_cons_of_mem _ (List.mem_cons_of_mem _ h)

theorem le_foldl_max (l : List ℚ) : ∀ a : ℚ, a ≤ l.foldl max a := by
  induction l with
  | nil => intro a; simp
  | cons x l ih =>
    intro a
    rw [List.foldl_cons]
    exact le_trans (le_max_left a x) (ih (max a x))

theorem mem_le_foldl_max (l : List ℚ) :
    ∀ (a y : ℚ), y ∈ l → y ≤ l.foldl max a := by
  induction l with
  | nil => intro a y h; cases h
  | cons x l ih =>
    intro a y h
    rw [List.foldl_cons]
    rcases List.mem_cons.mp h with h1 | h1
    · subst h1
      exact le_trans (le_max_right a y) (le_foldl_max l _)
    · exact ih _ y h1

theorem scoresOf_map_to_entry {R I : Type} [DecidableEq I]
    (d : SearchEntryDict R I) (l : List R) (i : I) :
    scoresOf (entryDict I) (l.map (to_entry d)) i = scoresOf d l i := by
  induction l with
  | nil => rfl
  | cons r l ih =>
    rw [List.map_cons, scoresOf_cons, scoresOf_cons]
    by_cases h : d.id r = i
    · rw [if_pos h, if_pos (show (entryDict I).id (to_entry d r) = i from h), ih]
      rfl
    · rw [if_neg h, if_neg (show ¬ (entryDict I).id (to_entry d r) = i from h),
        ih]

theorem scoresOf_append {R I : Type} [DecidableEq I] (d : SearchEntryDict R I)
    (l1 l2 : List R) (i : I) :
    scoresOf d (l1 ++ l2) i = scoresOf d l1 i ++ scoresOf d l2 i := by
  simp [scoresOf, List.filter_append]

theorem comb_sum_append (a b : List Score) :
    comb_sum (a ++ b) = comb_sum a + comb_sum b := by
  simp [comb_sum]

/-- C1: for every finite input sequence of search entries and every
combination function, the output of `fuse_scored` contains each distinct
input document id exactly once (its id list has no duplicates and holds
exactly the input ids), and its scores are non-increasing from the first
element to the last. -/
theorem fuse_scored_ids_unique_and_sorted {R I : Type} [DecidableEq I]
    (d : SearchEntryDict R I) (l : List R) (f : List Score → Score) :
    ((fuse_scored d l f).map EntryInfo.id).Nodup ∧
      (∀ i : I, i ∈ (fuse_scored d l f).map EntryInfo.id ↔ i ∈ l.map d.id) ∧
      List.Pairwise (fun a b : EntryInfo I => b.score ≤ a.score)
        (fuse_scored d l f) := by
  have hperm :
      (fuse_scored d l f).Perm
        ((buildMap d l).map (fun p => EntryInfo.mk p.1 (f p.2))) :=
    List.perm_insertionSort _ _
  have hmap :
      (((buildMap d l).map (fun p => EntryInfo.mk p.1 (f p.2))).map
        EntryInfo.id) = (buildMap d l).map Prod.fst := by
    rw [List.map_map]
    rfl
  refine ⟨?_, ?_, ?_⟩
  · rw [(hperm.map EntryInfo.id).nodup_iff, hmap]
    exact buildMap_keys_nodup d l
  · intro i
    rw [(hperm.map EntryInfo.id).mem_iff, hmap, buildMap_keys_mem]
  · exact List.sorted_insertionSort scoreGE _

/-- C4: for every non-empty sequence of scores, `comb_max` returns the
maximum element (a member that bounds all members); on the empty
sequence it returns 0. `comb_sum` returns the sum of the elements, 0 on
the empty sequence. -/
theorem comb_max_comb_sum_spec (s : List Score) (h : s ≠ []) :
    comb_max s ∈ s ∧ (∀ y ∈ s, y ≤ comb_max s) ∧
      comb_max ([] : List Score) = 0 ∧
      comb_sum s = s.sum ∧ comb_sum ([] : List Score) = 0 := by
  match s, h with
  | x :: l, _ =>
    have hmax : comb_max (x :: l) = l.foldl max x := rfl
    refine ⟨?_, ?_, rfl, rfl, rfl⟩
    · rw [hmax]
      exact foldl_max_mem l x
    · intro y hy
      rw [hmax]
      rcases List.mem_cons.mp hy with h1 | h1
      · subst h1
        exact le_foldl_max l y
      · exact mem_le_foldl_max l x y h1

theorem comb_max_comb_sum_spec_witness :
    ([(1 : ℚ)] : List Score) ≠ [] ∧
      (comb_max [(1 : ℚ)] ∈ ([(1 : ℚ)] : List Score) ∧
        (∀ y ∈ ([(1 : ℚ)] : List Score), y ≤ comb_max [(1 : ℚ)]) ∧
        comb_max ([] : List Score) = 0 ∧
        comb_sum [(1 : ℚ)] = ([(1 : ℚ)] : List Score).sum ∧
        comb_sum ([] : List Score) = 0) :=
  ⟨by simp, comb_max_comb_sum_spec [(1 : ℚ)] (by simp)⟩

/-- C5: for every sequence of scores, `comb_mnz` equals the length of
the sequence multiplied by `comb_sum` of the sequence. -/
theorem comb_mnz_eq_len_mul_sum (s : List Score) :
    comb_mnz s = (s.length : ℚ) * comb_sum s := rfl

/-- C6: `fuse_scored_lists` equals converting both lists to the minimal
entry form, concatenating, and calling `fuse_scored`; and fusing a list
against itself with CombSUM combines the doubled multiset of scores of
each output id (no deduplication of the duplicated contributions). -/
theorem fuse_scored_lists_spec {R1 R2 R I : Type} [DecidableEq I]
    (d1 : SearchEntryDict R1 I) (d2 : SearchEntryDict R2 I)
    (l1 : List R1) (l2 : List R2) (f : List Score → Score)
    (d : SearchEntryDict R I) (l : List R) :
    fuse_scored_lists d1 d2 l1 l2 f =
        fuse_scored (entryDict I)
          (l1.map (to_entry d1) ++ l2.map (to_entry d2)) f ∧
      (fuse_scored_lists d d l l comb_sum).Forall
        (fun e => e.score = comb_sum (scoresOf d l e.id ++ scoresOf d l e.id) ∧
          e.score = 2 * comb_sum (scoresOf d l e.id)) := by
  refine ⟨rfl, List.forall_iff_forall_mem.mpr ?_⟩
  intro e he
  have he' : e ∈ fuse_scored (entryDict I)
      (l.map (to_entry d) ++ l.map (to_entry d)) comb_sum := he
  have h := (fuse_scored_spec _ _ _ e he').2
  rw [scoresOf_append, scoresOf_map_to_entry] at h
  refine ⟨h, ?_⟩
  rw [h, comb_sum_append]
  ring

/-- C2 (evidence of the dispatch defect): the CLI's `FromStr` mapping
resolves `combSUM`, `combMNZ` and the `sum`/`mnz` aliases to
`Fuser.CombMax`, not to `Fuser.CombSum`/`Fuser.CombMnz`; the merge
dispatch itself would apply `comb_sum`/`comb_mnz` for those selectors,
so every name ends up fused with `comb_max`. -/
theorem from_str_maps_all_names_to_CombMax :
    from_str "combSUM".toList = Except.ok Fuser.CombMax ∧
      from_str "combMNZ".toList = Except.ok Fuser.CombMax ∧
      from_str "combMAX".toList = Except.ok Fuser.CombMax ∧
      from_str "sum".toList = Except.ok Fuser.CombMax ∧
      from_str "mnz".toList = Except.ok Fuser.CombMax ∧
      Fuser.CombMax ≠ Fuser.CombSum ∧
      Fuser.CombMax ≠ Fuser.CombMnz ∧
      dispatch Fuser.CombMax = comb_max ∧
      dispatch Fuser.CombSum = comb_sum ∧
      dispatch Fuser.CombMnz = comb_mnz :=
  ⟨rfl, rfl, rfl, rfl, rfl, by decide, by decide, rfl, rfl, rfl⟩

/-! Character and digit-word lemmas for the TREC codec. -/

theorem isDigitC_iff (c : Char) :
    isDigitC c = true ↔ 48 ≤ c.toNat ∧ c.toNat ≤ 57 := by
  simp [isDigitC]

theorem wsC_false_of_digit {c : Char} (h : isDigitC c = true) :
    wsC c = false := by
  rw [isDigitC_iff] at h
  simp only [wsC, Bool.or_eq_false_iff, Bool.and_eq_false_iff]
  constructor
  · right
    simp only [decide_eq_false_iff_not]
    omega
  · simp only [beq_eq_false_iff_ne]
    omega

theorem char_ne_of_toNat_ne {c d : Char} (h : c.toNat ≠ d.toNat) : c ≠ d :=
  fun he => h (congrArg Char.toNat he)

theorem digitChar_toNat {d : ℕ} (h : d < 10) : (digitChar d).toNat = 48 + d := by
  interval_cases d <;> decide

theorem isDigitC_digitChar {d : ℕ} (h : d < 10) :
    isDigitC (digitChar d) = true := by
  rw [isDigitC_iff, digitChar_toNat h]
  omega

theorem charVal_digitChar {d : ℕ} (h : d < 10) : charVal (digitChar d) = d := by
  rw [charVal, digitChar_toNat h]
  omega

theorem lowerC_of_digit {c : Char} (h : isDigitC c = true) : lowerC c = c := by
  rw [isDigitC_iff] at h
  rw [lowerC, if_neg]
  simp only [Bool.and_eq_true, decide_eq_true_iff, not_and]
  omega

theorem wordVal_append (xs ys : List Char) :
    wordVal (xs ++ ys) = wordVal xs * 10 ^ ys.length + wordVal ys := by
  have aux : ∀ (ys : List Char) (a : ℕ),
      ys.foldl (fun a c => 10 * a + charVal c) a =
        a * 10 ^ ys.length + ys.foldl (fun a c => 10 * a + charVal c) 0 := by
    intro ys
    induction ys with
    | nil => intro a; simp
    | cons c ys ih =>
      intro a
      rw [List.foldl_cons, List.foldl_cons,
        ih (10 * a + charVal c), ih (10 * 0 + charVal c)]
      simp only [List.length_cons]
      ring
  rw [wordVal, wordVal, wordVal, List.foldl_append, aux]

theorem wordVal_replicate_zero (m : ℕ) :
    wordVal (List.replicate m '0') = 0 := by
  induction m with
  | zero => rfl
  | succ m ih =>
    rw [List.replicate_succ, wordVal, List.foldl_cons]
    have h0 : 10 * 0 + charVal '0' = 0 := by decide
    rw [h0]
    exact ih

theorem natDigits_eq_digits : ∀ fuel n, n ≤ fuel →
    natDigits fuel n = Nat.digits 10 n := by
  intro fuel
  induction fuel with
  | zero =>
    intro n h
    have : n = 0 := by omega
    subst this
    simp [natDigits]
  | succ fuel ih =>
    intro n h
    by_cases h0 : n = 0
    · subst h0
      simp [natDigits]
    · rw [natDigits, if_neg h0,
        ih (n / 10) (by omega), Nat.digits_def' (by omega : 1 < 10)
          (by omega : 0 < n)]

theorem natToChars_ne_nil (n : ℕ) : natToChars n ≠ [] := by
  by_cases h : n = 0
  · subst h
    decide
  · rw [natToChars, if_neg h, natDigits_eq_digits n n le_rfl]
    simp [Nat.digits_ne_nil_iff_ne_zero, h]

theorem natToChars_all_digits (n : ℕ) :
    ∀ c ∈ natToChars n, isDigitC c = true := by
  by_cases h : n = 0
  · subst h
    decide
  · rw [natToChars, if_neg h, natDigits_eq_digits n n le_rfl]
    intro c hc
    rw [List.mem_reverse] at hc
    obtain ⟨d, hd, hdc⟩ := List.mem_map.mp hc
    subst hdc
    exact isDigitC_digitChar (Nat.digits_lt_base (by omega) hd)

theorem wordVal_digit_list (ds : List ℕ) (h : ∀ d ∈ ds, d < 10) :
    wordVal ((ds.map digitChar).reverse) = Nat.ofDigits 10 ds := by
  induction ds with
  | nil => rfl
  | cons d tl ih =>
    rw [List.map_cons, List.reverse_cons, wordVal_append,
      ih (fun x hx => h x (List.mem_cons_of_mem _ hx)), Nat.ofDigits_cons]
    have hwv : wordVal [digitChar d] = d := by
      rw [wordVal, List.foldl_cons, List.foldl_nil]
      rw [show 10 * 0 + charVal (digitChar d) = charVal (digitChar d) by ring]
      exact charVal_digitChar (h d (List.mem_cons_self d tl))
    rw [hwv]
    simp only [List.length_cons, List.length_nil, pow_one]
    ring

theorem wordVal_natToChars (n : ℕ) : wordVal (natToChars n) = n := by
  by_cases h : n = 0
  · subst h
    decide
  · rw [natToChars, if_neg h, natDigits_eq_digits n n le_rfl,
      wordVal_digit_list _ (fun d hd => Nat.digits_lt_base (by omega) hd),
      Nat.ofDigits_digits]

theorem padZeros_all_digits {cs : List Char}
    (h : ∀ c ∈ cs, isDigitC c = true) (k : ℕ) :
    ∀ c ∈ padZeros k cs, isDigitC c = true := by
  intro c hc
  rcases List.mem_append.mp hc with h1 | h1
  · rw [List.eq_of_mem_replicate h1]
    decide
  · exact h c h1

theorem wordVal_padZeros (k : ℕ) (cs : List Char) :
    wordVal (padZeros k cs) = wordVal cs := by
  rw [padZeros, wordVal_append, wordVal_replicate_zero]
  ring

theorem padZeros_length (k : ℕ) (cs : List Char) :
    (padZeros k cs).length = max k cs.length := by
  rw [padZeros, List.length_append, List.length_replicate]
  omega

theorem splitOnFirst_not_found (p : Char → Bool) (l : List Char)
    (h : ∀ c ∈ l, p c = false) : splitOnFirst p l = (l, none) := by
  induction l with
  | nil => rfl
  | cons c tl ih =>
    rw [splitOnFirst, if_neg (by simp [h c (List.mem_cons_self c tl)]),
      ih (fun x hx => h x (List.mem_cons_of_mem _ hx))]

theorem splitOnFirst_found (p : Char → Bool) (a : List Char) (c : Char)
    (b : List Char) (ha : ∀ x ∈ a, p x = false) (hc : p c = true) :
    splitOnFirst p (a ++ c :: b) = (a, some b) := by
  induction a with
  | nil =>
    rw [List.nil_append, splitOnFirst, if_pos hc]
  | cons x a ih =>
    rw [List.cons_append, splitOnFirst,
      if_neg (by simp [ha x (List.mem_cons_self x a)]),
      ih (fun y hy => ha y (List.mem_cons_of_mem _ hy))]

theorem swAux_nonws (w : List Char) (hw : ∀ c ∈ w, wsC c = false) :
    ∀ (s acc : List Char), swAux (w ++ s) acc = swAux s (w.reverse ++ acc) := by
  induction w with
  | nil => intro s acc; simp
  | cons c w ih =>
    intro s acc
    rw [List.cons_append, swAux,
      if_neg (by simp [hw c (List.mem_cons_self c w)]),
      ih (fun x hx => hw x (List.mem_cons_of_mem _ hx)) s (c :: acc),
      List.reverse_cons, List.append_assoc, List.singleton_append]

theorem splitWhitespace_word (w rest : List Char) (hw : w ≠ [])
    (hnw : ∀ c ∈ w, wsC c = false) :
    splitWhitespace (w ++ ' ' :: rest) = w :: splitWhitespace rest := by
  rw [splitWhitespace, swAux_nonws w hnw, List.append_nil, swAux,
    if_pos (by decide : wsC ' ' = true),
    if_neg (by simp [List.isEmpty_iff, hw]), List.reverse_reverse]
  rfl

theorem splitWhitespace_single (w : List Char) (hw : w ≠ [])
    (hnw : ∀ c ∈ w, wsC c = false) :
    splitWhitespace w = [w] := by
  have h := swAux_nonws w hnw [] []
  rw [List.append_nil] at h
  rw [splitWhitespace, h, List.append_nil, swAux,
    if_neg (by simp [List.isEmpty_iff, hw]), List.reverse_reverse]

theorem digitsVal?_all (cs : List Char) (hne : cs ≠ [])
    (hall : ∀ c ∈ cs, isDigitC c = true) :
    digitsVal? cs = some (wordVal cs) := by
  rw [digitsVal?, if_neg (by simp [List.isEmpty_iff, hne]),
    if_pos (List.all_eq_true.mpr hall)]

theorem parseU32_natToChars (r : ℕ) (h : r < 2 ^ 32) :
    parseU32 (natToChars r) = some r := by
  have hall := natToChars_all_digits r
  have hne := natToChars_ne_nil r
  have hplus : stripPlus (natToChars r) = natToChars r := by
    cases hc : natToChars r with
    | nil => rfl
    | cons c t =>
      have hcd : isDigitC c = true := hall c (hc ▸ List.mem_cons_self c t)
      rw [isDigitC_iff] at hcd
      have hpn : ('+').toNat = 43 := by decide
      rw [stripPlus, if_neg (char_ne_of_toNat_ne (by omega))]
  rw [parseU32, hplus, digitsVal?_all _ hne hall, wordVal_natToChars]
  exact if_pos h

theorem scoreTokOk_spec (t : List Char) (h : scoreTokOk t = true) :
    ∃ f, parseF32 t = some f ∧ f ≠ F32.nan := by
  cases hp : parseF32 t with
  | none =>
    rw [scoreTokOk, hp] at h
    cases h
  | some f =>
    cases f with
    | nan =>
      rw [scoreTokOk, hp] at h
      cases h
    | inf => exact ⟨F32.inf, rfl, by simp⟩
    | neginf => exact ⟨F32.neginf, rfl, by simp⟩
    | finite q => exact ⟨F32.finite q, rfl, by simp⟩

theorem except_ok_of_isOk {ε α : Type} (x : Except ε α)
    (h : x.isOk = true) : ∃ b, x = Except.ok b := by
  cases x with
  | ok b => exact ⟨b, rfl⟩
  | error e =>
    rw [Except.isOk] at h
    cases h

theorem mapME_append_error {α ε : Type} {β : Type}
    (f : α → Except ε β) (pre : List α) (x : α) (post : List α) (e : ε)
    (h2 : ∀ p ∈ pre, (f p).isOk = true) (hx : f x = Except.error e) :
    mapME f (pre ++ x :: post) = Except.error e := by
  induction pre with
  | nil =>
    rw [List.nil_append, mapME, hx]
  | cons p pre ih =>
    obtain ⟨b, hb⟩ := except_ok_of_isOk _ (h2 p (List.mem_cons_self p pre))
    rw [List.cons_append, mapME, hb,
      ih (fun q hq => h2 q (List.mem_cons_of_mem _ hq))]

theorem mapME_map_ok {α β ε : Type} (f : β → Except ε α) (g : α → β)
    (l : List α) (h : ∀ a ∈ l, f (g a) = Except.ok a) :
    mapME f (l.map g) = Except.ok l := by
  induction l with
  | nil => rfl
  | cons a l ih =>
    rw [List.map_cons, mapME, h a (List.mem_cons_self a l),
      ih (fun x hx => h x (List.mem_cons_of_mem _ hx))]

theorem splitNl_append_nl (a r : List Char) (h : '\n' ∉ a) :
    splitNl (a ++ '\n' :: r) = a :: splitNl r := by
  induction a with
  | nil =>
    rw [List.nil_append, splitNl, if_pos rfl]
  | cons c a ih =>
    have hc : ¬ c = '\n' := fun he => h (he ▸ List.mem_cons_self c a)
    rw [List.cons_append, splitNl, if_neg hc,
      ih (fun hm => h (List.mem_cons_of_mem _ hm))]

theorem getLast?_mem {α : Type} : ∀ (l : List α) (c : α),
    l.getLast? = some c → c ∈ l := by
  intro l
  induction l with
  | nil => intro c h; cases h
  | cons a t ih =>
    intro c h
    cases t with
    | nil =>
      rw [List.getLast?_singleton] at h
      injection h with h
      rw [h]
      exact List.mem_cons_self _ _
    | cons b t2 =>
      rw [List.getLast?_cons_cons] at h
      exact List.mem_cons_of_mem _ (ih c h)

theorem getLast?_append_of_ne_nil {α : Type} (a b : List α) (hb : b ≠ []) :
    (a ++ b).getLast? = b.getLast? := by
  rw [List.getLast?_append]
  cases hc : b.getLast? with
  | none =>
    rw [List.getLast?_eq_none_iff] at hc
    exact absurd hc hb
  | some c => rfl

/-! Round trip between the decimal renderer and the float grammar. -/

theorem renderPosDec_spec (n d : ℕ) (hd : 0 < d) :
    ∃ ip fp : List Char,
      renderPosDec n d = ip ++ '.' :: fp ∧ ip ≠ [] ∧
        (∀ c ∈ ip, isDigitC c = true) ∧ (∀ c ∈ fp, isDigitC c = true) ∧
        fp.length = d ∧
        wordVal ip * 10 ^ d + wordVal fp = n * 10 ^ d / d := by
  set s := padZeros (d + 1) (natToChars (n * 10 ^ d / d)) with hs
  have hslen : d + 1 ≤ s.length := by
    rw [hs, padZeros_length]
    exact le_max_left _ _
  have hsall : ∀ c ∈ s, isDigitC c = true := by
    rw [hs]
    exact padZeros_all_digits (natToChars_all_digits _) (d + 1)
  refine ⟨s.take (s.length - d), s.drop (s.length - d), rfl, ?_, ?_, ?_, ?_, ?_⟩
  · rw [← List.length_pos, List.length_take]
    omega
  · exact fun c hc => hsall c (List.take_subset _ _ hc)
  · exact fun c hc => hsall c (List.drop_subset _ _ hc)
  · rw [List.length_drop]
    omega
  · have hlenfp : (s.drop (s.length - d)).length = d := by
      rw [List.length_drop]
      omega
    calc wordVal (s.take (s.length - d)) * 10 ^ d +
          wordVal (s.drop (s.length - d))
        = wordVal (s.take (s.length - d)) *
            10 ^ (s.drop (s.length - d)).length +
            wordVal (s.drop (s.length - d)) := by rw [hlenfp]
      _ = wordVal (s.take (s.length - d) ++ s.drop (s.length - d)) :=
          (wordVal_append _ _).symm
      _ = wordVal s := by rw [List.take_append_drop]
      _ = n * 10 ^ d / d := by rw [hs, wordVal_padZeros, wordVal_natToChars]

theorem digit_not_dot {c : Char} (h : isDigitC c = true) :
    (c == '.') = false := by
  rw [beq_eq_false_iff_ne]
  rw [isDigitC_iff] at h
  have hdot : ('.').toNat = 46 := by decide
  exact char_ne_of_toNat_ne (by omega)

theorem digit_not_e {c : Char} (h : isDigitC c = true) :
    (c == 'e' || c == 'E') = false := by
  rw [isDigitC_iff] at h
  have h1 : ('e').toNat = 101 := by decide
  have h2 : ('E').toNat = 69 := by decide
  simp only [Bool.or_eq_false_iff, beq_eq_false_iff_ne]
  exact ⟨char_ne_of_toNat_ne (by omega), char_ne_of_toNat_ne (by omega)⟩

theorem parseMantissa_renderPosDec (n d : ℕ) (hd : 0 < d)
    (hdvd : d ∣ 10 ^ d) :
    parseMantissa (renderPosDec n d) = some ((n : ℚ) / (d : ℚ)) := by
  obtain ⟨ip, fp, heq, hip, hipd, hfpd, hfl, hwv⟩ := renderPosDec_spec n d hd
  have hdot : (('.' : Char) == '.') = true := by decide
  rw [heq]
  simp only [parseMantissa,
    splitOnFirst_found _ ip '.' fp (fun c hc => digit_not_dot (hipd c hc)) hdot]
  rw [if_pos ⟨List.all_eq_true.mpr hipd, List.all_eq_true.mpr hfpd, Or.inl hip⟩]
  congr 1
  rw [hfl, hwv]
  have hmd : n * 10 ^ d / d * d = n * 10 ^ d :=
    Nat.div_mul_cancel (hdvd.mul_left n)
  have hd0 : (d : ℚ) ≠ 0 := Nat.cast_ne_zero.mpr (by omega)
  have h10 : ((10 : ℚ)) ^ d ≠ 0 := pow_ne_zero _ (by norm_num)
  rw [div_eq_div_iff h10 hd0]
  exact_mod_cast hmd

theorem renderPosDec_chars (n d : ℕ) (hd : 0 < d) :
    ∀ c ∈ renderPosDec n d, isDigitC c = true ∨ c = '.' := by
  obtain ⟨ip, fp, heq, _, hipd, hfpd, _, _⟩ := renderPosDec_spec n d hd
  rw [heq]
  intro c hc
  rcases List.mem_append.mp hc with h | h
  · exact Or.inl (hipd c h)
  · rcases List.mem_cons.mp h with h | h
    · exact Or.inr h
    · exact Or.inl (hfpd c h)

theorem renderF32_all_nonws (f : F32) : ∀ c ∈ renderF32 f, wsC c = false := by
  cases f with
  | nan => decide
  | inf => decide
  | neginf => decide
  | finite q =>
    intro c hc
    simp only [renderF32] at hc
    rcases List.mem_append.mp hc with h | h
    · by_cases hq : q < 0
      · rw [if_pos hq] at h
        rw [List.mem_singleton.mp h]
        decide
      · rw [if_neg hq] at h
        cases h
    · rcases renderPosDec_chars _ _ (Nat.pos_of_ne_zero q.den_nz) c h with
        hdg | hdot
      · exact wsC_false_of_digit hdg
      · rw [hdot]
        decide

theorem renderF32_ne_nil (f : F32) : renderF32 f ≠ [] := by
  cases f with
  | nan => decide
  | inf => decide
  | neginf => decide
  | finite q =>
    obtain ⟨ip, fp, heq, _, _, _, _, _⟩ :=
      renderPosDec_spec q.num.natAbs q.den (Nat.pos_of_ne_zero q.den_nz)
    simp only [renderF32, heq]
    intro hcontra
    rcases List.append_eq_nil.mp hcontra with ⟨_, h2⟩
    rcases List.append_eq_nil.mp h2 with ⟨_, h3⟩
    cases h3

theorem cons_ne_of_head_ne {c d : Char} (h : c ≠ d) (t t2 : List Char) :
    c :: t ≠ d :: t2 := by
  intro he
  injection he with h1 _
  exact h h1

theorem head_digit_not_special {c : Char} (h : isDigitC c = true)
    (t : List Char) :
    ((c :: t).map lowerC ≠ "inf".toList) ∧
      ((c :: t).map lowerC ≠ "infinity".toList) ∧
      ((c :: t).map lowerC ≠ "nan".toList) := by
  rw [List.map_cons, lowerC_of_digit h]
  rw [isDigitC_iff] at h
  have hi : ('i').toNat = 105 := by decide
  have hn : ('n').toNat = 110 := by decide
  exact ⟨cons_ne_of_head_ne (char_ne_of_toNat_ne (by omega)) _ _,
    cons_ne_of_head_ne (char_ne_of_toNat_ne (by omega)) _ _,
    cons_ne_of_head_ne (char_ne_of_toNat_ne (by omega)) _ _⟩

theorem stripSign_minus (t : List Char) : stripSign ('-' :: t) = (true, t) := by
  simp [stripSign]

theorem stripSign_digit {c : Char} (h : isDigitC c = true) (t : List Char) :
    stripSign (c :: t) = (false, c :: t) := by
  rw [isDigitC_iff] at h
  have h1 : ('-').toNat = 45 := by decide
  have h2 : ('+').toNat = 43 := by decide
  rw [stripSign, if_neg (char_ne_of_toNat_ne (by omega)),
    if_neg (char_ne_of_toNat_ne (by omega))]

theorem parseF32Rest_number (neg : Bool) (X : List Char) (v : ℚ)
    (h1 : X.map lowerC ≠ "inf".toList) (h2 : X.map lowerC ≠ "infinity".toList)
    (h3 : X.map lowerC ≠ "nan".toList)
    (h4 : splitOnFirst (fun c => c == 'e' || c == 'E') X = (X, none))
    (h5 : parseMantissa X = some v) :
    parseF32Rest neg X = some (F32.finite (if neg then -v else v)) := by
  simp only [parseF32Rest]
  rw [if_neg (not_or.mpr ⟨h1, h2⟩), if_neg h3, h4]
  simp only [h5, Option.map_some']

theorem decimalRepr_finite {f : F32} (h : decimalRepr f) :
    ∃ q : ℚ, f = F32.finite q ∧ q.den ∣ 10 ^ q.den := by
  cases f with
  | nan => simp [decimalRepr] at h
  | inf => simp [decimalRepr] at h
  | neginf => simp [decimalRepr] at h
  | finite q => exact ⟨q, rfl, h⟩

theorem decimalRepr_ne_nan {f : F32} (h : decimalRepr f) : f ≠ F32.nan := by
  obtain ⟨q, rfl, _⟩ := decimalRepr_finite h
  simp

theorem parseF32_renderF32 (f : F32) (h : decimalRepr f) :
    parseF32 (renderF32 f) = some f := by
  obtain ⟨q, rfl, hdvd⟩ := decimalRepr_finite h
  have hd : 0 < q.den := Nat.pos_of_ne_zero q.den_nz
  obtain ⟨ip, fp, heq, hip, hipd, hfpd, hfl, hwv⟩ :=
    renderPosDec_spec q.num.natAbs q.den hd
  obtain ⟨c0, ip', rfl⟩ : ∃ c0 ip', ip = c0 :: ip' := by
    cases ip with
    | nil => exact absurd rfl hip
    | cons a b => exact ⟨a, b, rfl⟩
  have hc0 : isDigitC c0 = true := hipd c0 (List.mem_cons_self _ _)
  have hX : renderPosDec q.num.natAbs q.den = c0 :: (ip' ++ '.' :: fp) := by
    rw [heq, List.cons_append]
  have hmant : parseMantissa (renderPosDec q.num.natAbs q.den) =
      some ((q.num.natAbs : ℚ) / (q.den : ℚ)) :=
    parseMantissa_renderPosDec _ _ hd hdvd
  have hspec := head_digit_not_special hc0 (ip' ++ '.' :: fp)
  have hlow1 : (renderPosDec q.num.natAbs q.den).map lowerC ≠
      "inf".toList := hX ▸ hspec.1
  have hlow2 : (renderPosDec q.num.natAbs q.den).map lowerC ≠
      "infinity".toList := hX ▸ hspec.2.1
  have hlow3 : (renderPosDec q.num.natAbs q.den).map lowerC ≠
      "nan".toList := hX ▸ hspec.2.2
  have hsplitE : splitOnFirst (fun c => c == 'e' || c == 'E')
      (renderPosDec q.num.natAbs q.den) =
      (renderPosDec q.num.natAbs q.den, none) := by
    apply splitOnFirst_not_found
    intro c hc
    rcases renderPosDec_chars _ _ hd c hc with hdg | hdot
    · exact digit_not_e hdg
    · rw [hdot]
      decide
  by_cases hq : q < 0
  · have hrend : renderF32 (F32.finite q) =
        '-' :: renderPosDec q.num.natAbs q.den := by
      simp only [renderF32, if_pos hq, List.singleton_append]
    have hle : q.num ≤ 0 :=
      le_of_not_lt (fun hc => lt_asymm hq (Rat.num_pos.mp hc))
    have hnum : ((q.num.natAbs : ℚ)) = -(q.num : ℚ) := by
      rw [Int.cast_natAbs]
      exact_mod_cast abs_of_nonpos hle
    rw [hrend]
    simp only [parseF32, stripSign_minus]
    rw [parseF32Rest_number true _ _ hlow1 hlow2 hlow3 hsplitE hmant,
      if_pos rfl, hnum, neg_div, neg_neg, Rat.num_div_den]
  · have hrend : renderF32 (F32.finite q) =
        renderPosDec q.num.natAbs q.den := by
      simp only [renderF32, if_neg hq, List.nil_append]
    have hnum : ((q.num.natAbs : ℚ)) = (q.num : ℚ) := by
      rw [Int.cast_natAbs]
      exact_mod_cast abs_of_nonneg (Rat.num_nonneg.mpr (not_lt.mp hq))
    rw [hrend]
    rw [show parseF32 (renderPosDec q.num.natAbs q.den) =
        parseF32Rest false (renderPosDec q.num.natAbs q.den) by
      rw [parseF32, hX, stripSign_digit hc0, ← hX]]
    rw [parseF32Rest_number false _ _ hlow1 hlow2 hlow3 hsplitE hmant,
      if_neg (by simp), hnum, Rat.num_div_den]

theorem parseLine_tokens (l t0 t1 t2 t3 t4 t5 : List Char)
    (rest : List (List Char)) (r : ℕ) (f : F32)
    (hsp : splitWhitespace l = t0 :: t1 :: t2 :: t3 :: t4 :: t5 :: rest)
    (hr : parseU32 t3 = some r) (hs : parseF32 t4 = some f)
    (hf : f ≠ F32.nan) :
    parseLine l = Except.ok
      { qid := t0, docno := t2, rank := r, score := f, runid := t5 } := by
  simp only [parseLine, hsp, hr, hs, Option.bind, try_new, if_neg hf]

theorem parseLine_nan (l t0 t1 t2 t3 t4 : List Char)
    (rest : List (List Char)) (r : ℕ)
    (hsp : splitWhitespace l = t0 :: t1 :: t2 :: t3 :: t4 :: rest)
    (hr : parseU32 t3 = some r) (hs : parseF32 t4 = some F32.nan) :
    parseLine l = Except.error (ParseError.InvalidScore t4) := by
  simp only [parseLine, hsp, hr, hs, Option.bind, try_new]
  simp

theorem tokenOk_spec {t : List Char} (h : tokenOk t = true) :
    t ≠ [] ∧ ∀ c ∈ t, wsC c = false := by
  rw [tokenOk, Bool.and_eq_true] at h
  constructor
  · intro he
    subst he
    simp at h
  · intro c hc
    have h2 := List.all_eq_true.mp h.2 c hc
    simpa using h2

theorem splitWhitespace_lineBody (e : TrecEntry)
    (hq : tokenOk e.qid = true) (hd : tokenOk e.docno = true)
    (hrid : tokenOk e.runid = true) :
    splitWhitespace (lineBody e) =
      [e.qid, ['0'], e.docno, natToChars e.rank, renderF32 e.score,
        e.runid] := by
  obtain ⟨hq1, hq2⟩ := tokenOk_spec hq
  obtain ⟨hd1, hd2⟩ := tokenOk_spec hd
  obtain ⟨hr1, hr2⟩ := tokenOk_spec hrid
  have hnat1 := natToChars_ne_nil e.rank
  have hnat2 : ∀ c ∈ natToChars e.rank, wsC c = false :=
    fun c hc => wsC_false_of_digit (natToChars_all_digits _ c hc)
  have hsc1 := renderF32_ne_nil e.score
  have hsc2 := renderF32_all_nonws e.score
  rw [lineBody, splitWhitespace_word _ _ hq1 hq2]
  show e.qid :: splitWhitespace (['0'] ++ ' ' ::
    (e.docno ++ ' ' :: (natToChars e.rank ++ ' ' ::
      (renderF32 e.score ++ ' ' :: e.runid)))) = _
  rw [splitWhitespace_word _ _ (by simp) (by decide),
    splitWhitespace_word _ _ hd1 hd2,
    splitWhitespace_word _ _ hnat1 hnat2,
    splitWhitespace_word _ _ hsc1 hsc2,
    splitWhitespace_single _ hr1 hr2]

theorem writeEntry_eq_lineBody (e : TrecEntry) :
    writeEntry e = lineBody e ++ ['\n'] := by
  simp [writeEntry, lineBody]

theorem lineBody_chars (e : TrecEntry)
    (hq : tokenOk e.qid = true) (hd : tokenOk e.docno = true)
    (hrid : tokenOk e.runid = true) :
    ∀ c ∈ lineBody e, wsC c = false ∨ c = ' ' ∨ c = '0' := by
  obtain ⟨hq1, hq2⟩ := tokenOk_spec hq
  obtain ⟨hd1, hd2⟩ := tokenOk_spec hd
  obtain ⟨hr1, hr2⟩ := tokenOk_spec hrid
  have hnat2 : ∀ c ∈ natToChars e.rank, wsC c = false :=
    fun c hc => wsC_false_of_digit (natToChars_all_digits _ c hc)
  have hsc2 := renderF32_all_nonws e.score
  intro c hc
  rw [lineBody] at hc
  rcases List.mem_append.mp hc with h | hc2
  · exact Or.inl (hq2 c h)
  rcases List.mem_cons.mp hc2 with rfl | hc3
  · exact Or.inr (Or.inl rfl)
  rcases List.mem_cons.mp hc3 with rfl | hc4
  · exact Or.inr (Or.inr rfl)
  rcases List.mem_cons.mp hc4 with rfl | hc5
  · exact Or.inr (Or.inl rfl)
  rcases List.mem_append.mp hc5 with h | hc6
  · exact Or.inl (hd2 c h)
  rcases List.mem_cons.mp hc6 with rfl | hc7
  · exact Or.inr (Or.inl rfl)
  rcases List.mem_append.mp hc7 with h | hc8
  · exact Or.inl (hnat2 c h)
  rcases List.mem_cons.mp hc8 with rfl | hc9
  · exact Or.inr (Or.inl rfl)
  rcases List.mem_append.mp hc9 with h | hc10
  · exact Or.inl (hsc2 c h)
  rcases List.mem_cons.mp hc10 with rfl | h
  · exact Or.inr (Or.inl rfl)
  · exact Or.inl (hr2 c h)

theorem lineBody_no_nl (e : TrecEntry)
    (hq : tokenOk e.qid = true) (hd : tokenOk e.docno = true)
    (hrid : tokenOk e.runid = true) :
    '\n' ∉ lineBody e := by
  intro hmem
  rcases lineBody_chars e hq hd hrid '\n' hmem with h | h | h
  · rw [show wsC '\n' = true from by decide] at h
    cases h
  · exact absurd h (by decide)
  · exact absurd h (by decide)

theorem lineBody_last_not_cr (e : TrecEntry)
    (hrid : tokenOk e.runid = true) :
    (lineBody e).getLast? ≠ some '\r' := by
  obtain ⟨hr1, hr2⟩ := tokenOk_spec hrid
  have hflat : lineBody e =
      (e.qid ++ ' ' :: '0' :: ' ' :: (e.docno ++ ' ' ::
        (natToChars e.rank ++ ' ' :: (renderF32 e.score ++ [' '])))) ++
        e.runid := by
    simp [lineBody]
  rw [hflat, getLast?_append_of_ne_nil _ _ hr1]
  intro hcontra
  have hmem := getLast?_mem _ _ hcontra
  have hws := hr2 '\r' hmem
  rw [show wsC '\r' = true from by decide] at hws
  cases hws

theorem splitNl_write_all (l : List TrecEntry)
    (hnl : ∀ e ∈ l, '\n' ∉ lineBody e) :
    splitNl (write_all l) = l.map lineBody ++ [[]] := by
  induction l with
  | nil => rfl
  | cons e l ih =>
    have hsplit : write_all (e :: l) = lineBody e ++ '\n' :: write_all l := by
      simp [write_all, writeEntry_eq_lineBody]
    rw [hsplit, splitNl_append_nl _ _ (hnl e (List.mem_cons_self _ _)),
      ih (fun x hx => hnl x (List.mem_cons_of_mem _ hx)), List.map_cons,
      List.cons_append]

theorem linesOf_write_all (l : List TrecEntry)
    (hnl : ∀ e ∈ l, '\n' ∉ lineBody e)
    (hcr : ∀ e ∈ l, (lineBody e).getLast? ≠ some '\r') :
    linesOf (write_all l) = l.map lineBody := by
  simp only [linesOf, splitNl_write_all l hnl]
  rw [List.dropLast_concat, List.getLast?_concat]
  show (l.map lineBody).map stripCr ++ [] = l.map lineBody
  rw [List.append_nil, List.map_map]
  have hcongr : ∀ e ∈ l, (stripCr ∘ lineBody) e = lineBody e := by
    intro e he
    show stripCr (lineBody e) = lineBody e
    rw [stripCr, if_neg (hcr e he)]
  rw [List.map_congr_left hcongr]

theorem parseLine_lineBody (e : TrecEntry) (h : entryOk e) :
    parseLine (lineBody e) = Except.ok e := by
  obtain ⟨hq, hd, hrid, hrank, hdec⟩ := h
  exact parseLine_tokens (lineBody e) e.qid ['0'] e.docno
    (natToChars e.rank) (renderF32 e.score) e.runid [] e.rank e.score
    (splitWhitespace_lineBody e hq hd hrid)
    (parseU32_natToChars e.rank hrank) (parseF32_renderF32 e.score hdec)
    (decimalRepr_ne_nan hdec)

theorem parseLine_short (l : List Char)
    (h3 : (splitWhitespace l).length < 6)
    (h4 : 4 ≤ (splitWhitespace l).length →
      (parseU32 ((splitWhitespace l).getD 3 [])).isSome = true)
    (h5 : 5 ≤ (splitWhitespace l).length →
      scoreTokOk ((splitWhitespace l).getD 4 []) = true) :
    parseLine l = Except.error (ParseError.Eol
      (fieldName (splitWhitespace l).length)) := by
  rcases hsp : splitWhitespace l with
    _ | ⟨t0, _ | ⟨t1, _ | ⟨t2, _ | ⟨t3, _ | ⟨t4, _ | ⟨t5, rest⟩⟩⟩⟩⟩⟩
  · simp only [parseLine, hsp, List.length_nil, fieldName]
  · simp only [parseLine, hsp, List.length_cons, List.length_nil, fieldName]
  · simp only [parseLine, hsp, List.length_cons, List.length_nil, fieldName]
  · simp only [parseLine, hsp, List.length_cons, List.length_nil, fieldName]
  · rw [hsp] at h4
    obtain ⟨r, hr⟩ := Option.isSome_iff_exists.mp (h4 (by simp))
    simp only [List.getD_cons_succ, List.getD_cons_zero] at hr
    simp only [parseLine, hsp, hr, List.length_cons, List.length_nil,
      fieldName]
  · rw [hsp] at h4 h5
    obtain ⟨r, hr⟩ := Option.isSome_iff_exists.mp (h4 (by simp))
    simp only [List.getD_cons_succ, List.getD_cons_zero] at hr
    have h5' := h5 (by simp)
    simp only [List.getD_cons_succ, List.getD_cons_zero] at h5'
    obtain ⟨f, hf, hfn⟩ := scoreTokOk_spec _ h5'
    simp only [parseLine, hsp, hr, hf, Option.bind, try_new, if_neg hfn,
      List.length_cons, List.length_nil, fieldName]
  · rw [hsp] at h3
    simp only [List.length_cons] at h3
    omega

/-- C3 (amended): serializing a record sequence with `write_all` and
parsing it back with `parse_from_trec` reproduces the same records,
provided every record's string fields are nonempty whitespace-free
tokens, its rank fits u32, and its score is a finite value with an exact
decimal representation (as every f32 value has). -/
theorem write_parse_roundtrip (l : List TrecEntry)
    (h : ∀ e ∈ l, entryOk e) :
    parse_from_trec (write_all l) = Except.ok l := by
  have hnl : ∀ e ∈ l, '\n' ∉ lineBody e := fun e he =>
    lineBody_no_nl e (h e he).1 (h e he).2.1 (h e he).2.2.1
  have hcr : ∀ e ∈ l, (lineBody e).getLast? ≠ some '\r' := fun e he =>
    lineBody_last_not_cr e (h e he).2.2.1
  rw [parse_from_trec, linesOf_write_all l hnl hcr]
  exact mapME_map_ok parseLine lineBody l
    (fun e he => parseLine_lineBody e (h e he))

theorem write_parse_roundtrip_witness :
    (∀ e ∈ [TrecEntry.mk (String.toList "q1") (String.toList "docA") 0
        (F32.finite (⟨1, 2, by decide, by decide⟩ : ℚ))
        (String.toList "run1")], entryOk e) ∧
      parse_from_trec (write_all
        [TrecEntry.mk (String.toList "q1") (String.toList "docA") 0
          (F32.finite (⟨1, 2, by decide, by decide⟩ : ℚ))
          (String.toList "run1")]) =
      Except.ok [TrecEntry.mk (String.toList "q1") (String.toList "docA") 0
        (F32.finite (⟨1, 2, by decide, by decide⟩ : ℚ))
        (String.toList "run1")] :=
  ⟨by decide, write_parse_roundtrip _ (by decide)⟩

/-- C3 counterexample: a record whose qid contains a space has finite
score and a valid rank, yet serializing and re-parsing it fails (with an
invalid-rank error caused by the shifted fields) instead of returning
the original record. -/
theorem write_parse_roundtrip_counterexample :
    parse_from_trec (write_all
      [TrecEntry.mk (String.toList "a b") (String.toList "d") 0
        (F32.finite (⟨1, 1, by decide, by decide⟩ : ℚ))
        (String.toList "r")]) =
    Except.error (ParseError.InvalidRank (String.toList "d")) := by
  decide

/-- C7 (amended): a line with fewer than six whitespace-separated tokens
whose present rank and score tokens (if any) parse successfully makes
`parse_from_trec` fail with the unexpected-end-of-line error naming the
first missing field, and that error aborts the whole parse (all earlier
lines parsed fine, later lines are never reached). -/
theorem parse_short_line_eol (input ℓ : List Char)
    (pre post : List (List Char))
    (h1 : linesOf input = pre ++ ℓ :: post)
    (h2 : ∀ p ∈ pre, (parseLine p).isOk = true)
    (h3 : (splitWhitespace ℓ).length < 6)
    (h4 : 4 ≤ (splitWhitespace ℓ).length →
      (parseU32 ((splitWhitespace ℓ).getD 3 [])).isSome = true)
    (h5 : 5 ≤ (splitWhitespace ℓ).length →
      scoreTokOk ((splitWhitespace ℓ).getD 4 []) = true) :
    parse_from_trec input = Except.error (ParseError.Eol
      (fieldName (splitWhitespace ℓ).length)) := by
  rw [parse_from_trec, h1]
  exact mapME_append_error parseLine pre ℓ post _ h2
    (parseLine_short ℓ h3 h4 h5)

theorem parse_short_line_eol_witness :
    (splitWhitespace (String.toList "q 0 d 4")).length < 6 ∧
      parse_from_trec (String.toList "q 0 d 4") =
        Except.error (ParseError.Eol (fieldName
          (splitWhitespace (String.toList "q 0 d 4")).length)) :=
  ⟨by decide, parse_short_line_eol (String.toList "q 0 d 4")
    (String.toList "q 0 d 4") [] [] (by decide) (by decide) (by decide)
    (by decide) (by decide)⟩

/-- C7 counterexample: the line `a b c d` has fewer than six tokens, yet
the parser reports an invalid-rank error (the token `d` fails to parse
as a rank before the missing fields are noticed), not the
unexpected-end-of-line error the claim demands for every short line. -/
theorem parse_short_line_counterexample :
    (splitWhitespace (String.toList "a b c d")).length < 6 ∧
      parse_from_trec (String.toList "a b c d") =
        Except.error (ParseError.InvalidRank (String.toList "d")) ∧
      ParseError.InvalidRank (String.toList "d") ≠
        ParseError.Eol (fieldName
          (splitWhitespace (String.toList "a b c d")).length) := by
  refine ⟨by decide, by decide, by decide⟩

/-- C8: a line whose score token parses to NaN never parses
successfully: `parse_from_trec` aborts with the invalid-score error
naming the offending text; and independently, constructing a score from
NaN with `try_new` fails. -/
theorem parse_nan_score (input ℓ t0 t1 t2 t3 t4 : List Char)
    (rest : List (List Char)) (pre post : List (List Char)) (r : ℕ)
    (h1 : linesOf input = pre ++ ℓ :: post)
    (h2 : ∀ p ∈ pre, (parseLine p).isOk = true)
    (hsp : splitWhitespace ℓ = t0 :: t1 :: t2 :: t3 :: t4 :: rest)
    (hr : parseU32 t3 = some r)
    (hs : parseF32 t4 = some F32.nan) :
    parse_from_trec input = Except.error (ParseError.InvalidScore t4) ∧
      try_new F32.nan = none := by
  refine ⟨?_, rfl⟩
  rw [parse_from_trec, h1]
  exact mapME_append_error parseLine pre ℓ post _ h2
    (parseLine_nan ℓ t0 t1 t2 t3 t4 rest r hsp hr hs)

theorem parse_nan_score_witness :
    (parseF32 (String.toList "NaN") = some F32.nan ∧
      parseF32 (String.toList "nan") = some F32.nan) ∧
      (parse_from_trec (String.toList "q 0 d 0 NaN r") =
        Except.error (ParseError.InvalidScore (String.toList "NaN")) ∧
        try_new F32.nan = none) ∧
      (parse_from_trec (String.toList "q 0 d 0 nan r") =
        Except.error (ParseError.InvalidScore (String.toList "nan")) ∧
        try_new F32.nan = none) :=
  ⟨⟨by decide, by decide⟩,
    parse_nan_score (String.toList "q 0 d 0 NaN r")
      (String.toList "q 0 d 0 NaN r") (String.toList "q") (String.toList "0")
      (String.toList "d") (String.toList "0") (String.toList "NaN")
      [String.toList "r"] [] [] 0 (by decide) (by decide) (by decide)
      (by decide) (by decide),
    parse_nan_score (String.toList "q 0 d 0 nan r")
      (String.toList "q 0 d 0 nan r") (String.toList "q") (String.toList "0")
      (String.toList "d") (String.toList "0") (String.toList "nan")
      [String.toList "r"] [] [] 0 (by decide) (by decide) (by decide)
      (by decide) (by decide)⟩

/-- C9: an otherwise well-formed line whose score token parses to
positive or negative infinity is accepted by `parse_from_trec`, and the
record carries that infinite score; only NaN is rejected. -/
theorem parse_infinite_score_ok (input ℓ t0 t1 t2 t3 t4 t5 : List Char)
    (rest : List (List Char)) (r : ℕ) (f : F32)
    (h1 : linesOf input = [ℓ])
    (hsp : splitWhitespace ℓ = t0 :: t1 :: t2 :: t3 :: t4 :: t5 :: rest)
    (hr : parseU32 t3 = some r)
    (hs : parseF32 t4 = some f)
    (hf : f = F32.inf ∨ f = F32.neginf) :
    parse_from_trec input = Except.ok [TrecEntry.mk t0 t2 r f t5] := by
  have hfn : f ≠ F32.nan := by rcases hf with rfl | rfl <;> simp
  rw [parse_from_trec, h1, mapME,
    parseLine_tokens ℓ t0 t1 t2 t3 t4 t5 rest r f hsp hr hs hfn]
  rfl

theorem parse_infinite_score_ok_witness :
    (parseF32 (String.toList "inf") = some F32.inf ∧
      parseF32 (String.toList "-inf") = some F32.neginf) ∧
      parse_from_trec (String.toList "q 0 d 0 inf r") =
        Except.ok [TrecEntry.mk (String.toList "q") (String.toList "d") 0
          F32.inf (String.toList "r")] ∧
      parse_from_trec (String.toList "q 0 d 0 -inf r") =
        Except.ok [TrecEntry.mk (String.toList "q") (String.toList "d") 0
          F32.neginf (String.toList "r")] :=
  ⟨⟨by decide, by decide⟩,
    parse_infinite_score_ok (String.toList "q 0 d 0 inf r")
      (String.toList "q 0 d 0 inf r") (String.toList "q") (String.toList "0")
      (String.toList "d") (String.toList "0") (String.toList "inf")
      (String.toList "r") [] 0 F32.inf (by decide) (by decide) (by decide)
      (by decide) (Or.inl rfl),
    parse_infinite_score_ok (String.toList "q 0 d 0 -inf r")
      (String.toList "q 0 d 0 -inf r") (String.toList "q") (String.toList "0")
      (String.toList "d") (String.toList "0") (String.toList "-inf")
      (String.toList "r") [] 0 F32.neginf (by decide) (by decide)
      (by decide) (by decide) (Or.inr rfl)⟩

/-- C10: a line with more than six whitespace-separated tokens whose
first six form a valid record parses successfully to the record built
from the first six tokens alone; the extra tokens are silently
ignored. -/
theorem parse_extra_tokens_ignored (input ℓ t0 t1 t2 t3 t4 t5 : List Char)
    (rest : List (List Char)) (r : ℕ) (f : F32)
    (h1 : linesOf input = [ℓ])
    (hsp : splitWhitespace ℓ = t0 :: t1 :: t2 :: t3 :: t4 :: t5 :: rest)
    (hrest : rest ≠ [])
    (hr : parseU32 t3 = some r)
    (hs : parseF32 t4 = some f)
    (hf : f ≠ F32.nan) :
    parse_from_trec input = Except.ok [TrecEntry.mk t0 t2 r f t5] := by
  rw [parse_from_trec, h1, mapME,
    parseLine_tokens ℓ t0 t1 t2 t3 t4 t5 rest r f hsp hr hs hf]
  rfl

theorem parse_extra_tokens_ignored_witness :
    (["extra".toList, "junk".toList] : List (List Char)) ≠ [] ∧
      parse_from_trec (String.toList "q 0 d 0 inf r extra junk") =
        Except.ok [TrecEntry.mk (String.toList "q") (String.toList "d") 0
          F32.inf (String.toList "r")] :=
  ⟨by decide, parse_extra_tokens_ignored
    (String.toList "q 0 d 0 inf r extra junk")
    (String.toList "q 0 d 0 inf r extra junk") (String.toList "q")
    (String.toList "0") (String.toList "d") (String.toList "0")
    (String.toList "inf") (String.toList "r")
    ["extra".toList, "junk".toList] 0 F32.inf (by decide) (by decide)
    (by decide) (by decide) (by decide) (by decide)⟩
